import Mathlib

/-!
Shallow embedding of the fixed-window rate limiter in
`astrbot/core/pipeline/rate_limit_check/stage.py` (`RateLimitStage`).

Timestamps (`datetime` values) are modelled as rationals (seconds on an
absolute axis); durations (`timedelta`) as rationals.  The per-session
deque of admission timestamps is a `List ℚ` (front = oldest).  Since the
per-session lock serialises the whole critical section, the behaviour for
one session is sequential and is modelled by pure functions:
`processStep` is one iteration of the `while True` loop of
`RateLimitStage.process`, `processLoop` is the loop itself (the wake
instants read from the clock after each `asyncio.sleep` are a parameter),
and `runAttempts` folds a sequence of admission attempts for one session.
-/

namespace AstrBotRL

/-- The two overflow strategies of `RateLimitStrategy` in the config. -/
inductive RLStrategy
  | stall
  | discard
deriving DecidableEq, Repr

/-- The per-instance fields of `RateLimitStage` that the algorithm reads:
`rate_limit_count` (a Python `int`, hence `ℤ`; the constructor default is
`0`), `rate_limit_time` (a `timedelta`, in seconds) and `rl_strategy`. -/
structure RateLimitStage where
  rate_limit_count : ℤ
  rate_limit_time : ℚ
  rl_strategy : RLStrategy
deriving DecidableEq, Repr

/-- `initialize` can only fail with a configuration error (per the spec's
error taxonomy); the source assigns the three fields unconditionally. -/
inductive InitResult
  | ok (st : RateLimitStage)
  | configurationError
deriving DecidableEq, Repr

/-- `RateLimitStage.initialize`: reads `rate_limit.count`, `rate_limit.time`
and `rate_limit.strategy` from the config and stores them on the instance.
The source performs no validation of the values, so every input yields
`.ok`. -/
def RateLimitStage.initializeFromConfig
    (count : ℤ) (time : ℚ) (strategy : RLStrategy) : InitResult :=
  .ok { rate_limit_count := count, rate_limit_time := time,
        rl_strategy := strategy }

/-- The `while timestamps and timestamps[0] < expiry_threshold:
timestamps.popleft()` loop of `_remove_expired_timestamps`, recursing on
the deque. -/
def removeLoop (expiry_threshold : ℚ) : List ℚ → List ℚ
  | [] => []
  | t :: rest =>
    if t < expiry_threshold then removeLoop expiry_threshold rest
    else t :: rest

/-- `RateLimitStage._remove_expired_timestamps`: returns the deque after
the in-place popleft loop with `expiry_threshold = now - rate_limit_time`. -/
def RateLimitStage.remove_expired_timestamps
    (st : RateLimitStage) (timestamps : List ℚ) (now : ℚ) : List ℚ :=
  removeLoop (now - st.rate_limit_time) timestamps

/-- The stall duration computed on the over-capacity path:
`(next_window_time - now).total_seconds() + 0.3` with
`next_window_time = timestamps[0] + rate_limit_time`. -/
def RateLimitStage.stall_duration
    (st : RateLimitStage) (oldest now : ℚ) : ℚ :=
  (oldest + st.rate_limit_time - now) + 3 / 10

/-- Outcome of one iteration of the `while True` loop in `process`. -/
inductive StepOutcome
  | admitted
  | stalled (duration : ℚ)
  | discarded
deriving DecidableEq, Repr

/-- The body of one loop iteration after the prune, acting on the pruned
deque: admit if strictly under `rate_limit_count`, otherwise peek
`timestamps[0]` and branch on the strategy.  `none` models the
`IndexError` raised by the unguarded `timestamps[0]` on an empty deque. -/
def RateLimitStage.stepOnPruned
    (st : RateLimitStage) (pruned : List ℚ) (now : ℚ) :
    Option (StepOutcome × List ℚ) :=
  if (pruned.length : ℤ) < st.rate_limit_count then
    some (.admitted, pruned ++ [now])
  else
    match pruned with
    | [] => none
    | oldest :: _ =>
      match st.rl_strategy with
      | .stall => some (.stalled (st.stall_duration oldest now), pruned)
      | .discard => some (.discarded, pruned)

/-- One iteration of the `while True` loop of `RateLimitStage.process`
at instant `now`: prune the deque in place, then run the body on the
pruned deque. -/
def RateLimitStage.processStep
    (st : RateLimitStage) (timestamps : List ℚ) (now : ℚ) :
    Option (StepOutcome × List ℚ) :=
  st.stepOnPruned (st.remove_expired_timestamps timestamps now) now

/-- Result of a whole `process` call for one event. -/
inductive ProcessResult
  | continued
  | terminated
  | raisedIndexError
deriving DecidableEq, Repr

/-- The `while True` loop of `RateLimitStage.process` for one event:
on admission the loop breaks (CONTINUE, i.e. the coroutine returns
`None`); on DISCARD it returns `event.stop_event()` (TERMINATE); on STALL
it sleeps and re-enters the loop with `now` refreshed to the next clock
reading, taken from `wakes`.  Returns the result, the final deque and the
final value of `now`; `none` when `wakes` is too short to resolve the
loop. -/
def RateLimitStage.processLoop
    (st : RateLimitStage) (wakes : List ℚ) (timestamps : List ℚ) (now : ℚ) :
    Option (ProcessResult × List ℚ × ℚ) :=
  match st.processStep timestamps now with
  | none => some (.raisedIndexError, st.remove_expired_timestamps timestamps now, now)
  | some (.admitted, s) => some (.continued, s, now)
  | some (.discarded, s) => some (.terminated, s, now)
  | some (.stalled _, s) =>
    match wakes with
    | [] => none
    | w :: rest => st.processLoop rest s w

/-- A sequence of admission attempts for one session: each element of
`nows` is the instant of one loop iteration (one prune-and-check), the
state threads through, and the instants at which a timestamp was appended
(admissions) are collected.  An `IndexError` ends the trace. -/
def RateLimitStage.runAttempts
    (st : RateLimitStage) : List ℚ → List ℚ → List ℚ × List ℚ
  | [], s => (s, [])
  | now :: rest, s =>
    match st.processStep s now with
    | none => (st.remove_expired_timestamps s now, [])
    | some (.admitted, s') =>
      let r := st.runAttempts rest s'
      (r.1, now :: r.2)
    | some (.stalled _, s') => st.runAttempts rest s'
    | some (.discarded, s') => st.runAttempts rest s'

/-- Number of entries of `l` lying in the trailing window `[T - d, T]`. -/
def winCount (d T : ℚ) (l : List ℚ) : ℕ :=
  l.countP (fun t => decide (T - d ≤ t ∧ t ≤ T))

/-! ### Basic lemmas about the prune loop -/

theorem removeLoop_eq_dropWhile (c : ℚ) (l : List ℚ) :
    removeLoop c l = l.dropWhile (fun t => decide (t < c)) := by
  induction l with
  | nil => rfl
  | cons t rest ih =>
    by_cases h : t < c <;> simp [removeLoop, List.dropWhile_cons, h, ih]

theorem removeLoop_sublist (c : ℚ) (l : List ℚ) :
    List.Sublist (removeLoop c l) l := by
  induction l with
  | nil => simp [removeLoop]
  | cons t rest ih =>
    by_cases h : t < c
    · simpa [removeLoop, h] using ih.trans (List.sublist_cons_self t rest)
    · simp [removeLoop, h]

theorem removeLoop_split (c : ℚ) (l : List ℚ) :
    ∃ p, l = p ++ removeLoop c l ∧ ∀ t ∈ p, t < c := by
  induction l with
  | nil => exact ⟨[], by simp [removeLoop]⟩
  | cons t rest ih =>
    by_cases h : t < c
    · obtain ⟨p, hp, hmem⟩ := ih
      refine ⟨t :: p, ?_, ?_⟩
      · simp [removeLoop, h, ← hp]
      · intro x hx
        rcases List.mem_cons.mp hx with hx | hx
        · exact hx ▸ h
        · exact hmem x hx
    · exact ⟨[], by simp [removeLoop, h]⟩

theorem removeLoop_head_ge (c h : ℚ) (hs l : List ℚ) :
    removeLoop c l = h :: hs → ¬ h < c := by
  induction l with
  | nil => simp [removeLoop]
  | cons t rest ih =>
    by_cases hc : t < c
    · simpa [removeLoop, hc] using ih
    · intro he
      rw [removeLoop, if_neg hc] at he
      exact (List.cons.injEq .. ▸ he).1 ▸ hc

theorem removeLoop_idem (c : ℚ) (l : List ℚ) :
    removeLoop c (removeLoop c l) = removeLoop c l := by
  cases hr : removeLoop c l with
  | nil => simp [removeLoop]
  | cons h hs =>
    have := removeLoop_head_ge c h hs l hr
    simp [removeLoop, this]

theorem mem_removeLoop (c : ℚ) (l : List ℚ) {t : ℚ}
    (ht : t ∈ removeLoop c l) : t ∈ l :=
  (removeLoop_sublist c l).subset ht

theorem removeLoop_sorted {c : ℚ} {l : List ℚ}
    (hl : l.Sorted (· ≤ ·)) : (removeLoop c l).Sorted (· ≤ ·) :=
  hl.sublist (removeLoop_sublist c l)

theorem removeLoop_mem_ge_of_sorted {c : ℚ} {l : List ℚ}
    (hl : l.Sorted (· ≤ ·)) : ∀ t ∈ removeLoop c l, c ≤ t := by
  induction l with
  | nil => simp [removeLoop]
  | cons a rest ih =>
    rw [List.sorted_cons] at hl
    by_cases hc : a < c
    · simpa [removeLoop, hc] using ih hl.2
    · intro t ht
      rw [removeLoop, if_neg hc] at ht
      rcases List.mem_cons.mp ht with h | h
      · exact h ▸ not_lt.mp hc
      · exact le_trans (not_lt.mp hc) (hl.1 t h)

/-! ### Characterisations of one loop iteration -/

theorem stepOnPruned_admitted_iff (st : RateLimitStage) (pruned : List ℚ)
    (now : ℚ) (s : List ℚ) :
    st.stepOnPruned pruned now = some (.admitted, s) ↔
      (pruned.length : ℤ) < st.rate_limit_count ∧ s = pruned ++ [now] := by
  unfold RateLimitStage.stepOnPruned
  by_cases h : (pruned.length : ℤ) < st.rate_limit_count
  · simp [h, eq_comm]
  · rw [if_neg h]
    cases pruned with
    | nil =>
      simp only [List.length_nil, Nat.cast_zero] at h
      simp [h]
    | cons oldest pr =>
      simp only [List.length_cons, Nat.cast_add, Nat.cast_one] at h
      cases hs : st.rl_strategy <;> simp [h]

theorem stepOnPruned_none_iff (st : RateLimitStage) (pruned : List ℚ)
    (now : ℚ) :
    st.stepOnPruned pruned now = none ↔
      ¬ (pruned.length : ℤ) < st.rate_limit_count ∧ pruned = [] := by
  unfold RateLimitStage.stepOnPruned
  by_cases h : (pruned.length : ℤ) < st.rate_limit_count
  · simp [h]
  · rw [if_neg h]
    cases pruned with
    | nil =>
      simp only [List.length_nil, Nat.cast_zero] at h
      simp [h]
    | cons oldest pr =>
      simp only [List.length_cons, Nat.cast_add, Nat.cast_one] at h
      cases hs : st.rl_strategy <;> simp [h]

theorem stepOnPruned_stalled_iff (st : RateLimitStage) (pruned : List ℚ)
    (now w : ℚ) (s : List ℚ) :
    st.stepOnPruned pruned now = some (.stalled w, s) ↔
      ¬ (pruned.length : ℤ) < st.rate_limit_count ∧ st.rl_strategy = .stall ∧
        s = pruned ∧
        ∃ oldest pr, pruned = oldest :: pr ∧ w = st.stall_duration oldest now := by
  unfold RateLimitStage.stepOnPruned
  by_cases h : (pruned.length : ℤ) < st.rate_limit_count
  · simp [h]
  · rw [if_neg h]
    cases pruned with
    | nil =>
      simp only [List.length_nil, Nat.cast_zero] at h
      simp [h]
    | cons oldest pr =>
      simp only [List.length_cons, Nat.cast_add, Nat.cast_one] at h
      cases hs : st.rl_strategy <;> simp [h, hs, eq_comm, and_comm]

theorem stepOnPruned_discarded_iff (st : RateLimitStage) (pruned : List ℚ)
    (now : ℚ) (s : List ℚ) :
    st.stepOnPruned pruned now = some (.discarded, s) ↔
      ¬ (pruned.length : ℤ) < st.rate_limit_count ∧ st.rl_strategy = .discard ∧
        s = pruned ∧ pruned ≠ [] := by
  unfold RateLimitStage.stepOnPruned
  by_cases h : (pruned.length : ℤ) < st.rate_limit_count
  · simp [h]
  · rw [if_neg h]
    cases pruned with
    | nil =>
      simp only [List.length_nil, Nat.cast_zero] at h
      simp [h]
    | cons oldest pr =>
      simp only [List.length_cons, Nat.cast_add, Nat.cast_one] at h
      cases hs : st.rl_strategy <;> simp [h, hs, eq_comm]

/-! ### Compute lemmas for the loop and the attempt trace -/

theorem processLoop_of_admitted {st : RateLimitStage} {timestamps : List ℚ}
    {now : ℚ} {s : List ℚ} (wakes : List ℚ)
    (h : st.processStep timestamps now = some (.admitted, s)) :
    st.processLoop wakes timestamps now = some (.continued, s, now) := by
  conv_lhs => unfold RateLimitStage.processLoop
  rw [h]

theorem processLoop_of_discarded {st : RateLimitStage} {timestamps : List ℚ}
    {now : ℚ} {s : List ℚ} (wakes : List ℚ)
    (h : st.processStep timestamps now = some (.discarded, s)) :
    st.processLoop wakes timestamps now = some (.terminated, s, now) := by
  conv_lhs => unfold RateLimitStage.processLoop
  rw [h]

theorem processLoop_of_none {st : RateLimitStage} {timestamps : List ℚ}
    {now : ℚ} (wakes : List ℚ)
    (h : st.processStep timestamps now = none) :
    st.processLoop wakes timestamps now =
      some (.raisedIndexError, st.remove_expired_timestamps timestamps now, now) := by
  conv_lhs => unfold RateLimitStage.processLoop
  rw [h]

theorem processLoop_of_stalled_cons {st : RateLimitStage} {timestamps : List ℚ}
    {now w : ℚ} {s : List ℚ} (wk : ℚ) (rest : List ℚ)
    (h : st.processStep timestamps now = some (.stalled w, s)) :
    st.processLoop (wk :: rest) timestamps now = st.processLoop rest s wk := by
  conv_lhs => unfold RateLimitStage.processLoop
  rw [h]

theorem processLoop_of_stalled_nil {st : RateLimitStage} {timestamps : List ℚ}
    {now w : ℚ} {s : List ℚ}
    (h : st.processStep timestamps now = some (.stalled w, s)) :
    st.processLoop [] timestamps now = none := by
  conv_lhs => unfold RateLimitStage.processLoop
  rw [h]

theorem runAttempts_nil (st : RateLimitStage) (s : List ℚ) :
    st.runAttempts [] s = (s, []) := rfl

theorem runAttempts_cons_none {st : RateLimitStage} {s : List ℚ} {now : ℚ}
    (rest : List ℚ) (h : st.processStep s now = none) :
    st.runAttempts (now :: rest) s =
      (st.remove_expired_timestamps s now, []) := by
  conv_lhs => unfold RateLimitStage.runAttempts
  rw [h]

theorem runAttempts_cons_admitted {st : RateLimitStage} {s s' : List ℚ}
    {now : ℚ} (rest : List ℚ)
    (h : st.processStep s now = some (.admitted, s')) :
    st.runAttempts (now :: rest) s =
      ((st.runAttempts rest s').1, now :: (st.runAttempts rest s').2) := by
  conv_lhs => unfold RateLimitStage.runAttempts
  rw [h]

theorem runAttempts_cons_stalled {st : RateLimitStage} {s s' : List ℚ}
    {now w : ℚ} (rest : List ℚ)
    (h : st.processStep s now = some (.stalled w, s')) :
    st.runAttempts (now :: rest) s = st.runAttempts rest s' := by
  conv_lhs => unfold RateLimitStage.runAttempts
  rw [h]

theorem runAttempts_cons_discarded {st : RateLimitStage} {s s' : List ℚ}
    {now : ℚ} (rest : List ℚ)
    (h : st.processStep s now = some (.discarded, s')) :
    st.runAttempts (now :: rest) s = st.runAttempts rest s' := by
  conv_lhs => unfold RateLimitStage.runAttempts
  rw [h]

theorem processStep_admitted_iff (st : RateLimitStage) (timestamps : List ℚ)
    (now : ℚ) (s : List ℚ) :
    st.processStep timestamps now = some (.admitted, s) ↔
      ((st.remove_expired_timestamps timestamps now).length : ℤ) <
          st.rate_limit_count ∧
        s = st.remove_expired_timestamps timestamps now ++ [now] :=
  stepOnPruned_admitted_iff st (st.remove_expired_timestamps timestamps now) now s

theorem processStep_none_iff (st : RateLimitStage) (timestamps : List ℚ)
    (now : ℚ) :
    st.processStep timestamps now = none ↔
      ¬ ((st.remove_expired_timestamps timestamps now).length : ℤ) <
          st.rate_limit_count ∧
        st.remove_expired_timestamps timestamps now = [] :=
  stepOnPruned_none_iff st (st.remove_expired_timestamps timestamps now) now

theorem processStep_stalled_iff (st : RateLimitStage) (timestamps : List ℚ)
    (now w : ℚ) (s : List ℚ) :
    st.processStep timestamps now = some (.stalled w, s) ↔
      ¬ ((st.remove_expired_timestamps timestamps now).length : ℤ) <
          st.rate_limit_count ∧
        st.rl_strategy = .stall ∧
        s = st.remove_expired_timestamps timestamps now ∧
        ∃ oldest pr, st.remove_expired_timestamps timestamps now = oldest :: pr ∧
          w = st.stall_duration oldest now :=
  stepOnPruned_stalled_iff st (st.remove_expired_timestamps timestamps now) now w s

theorem processStep_discarded_iff (st : RateLimitStage) (timestamps : List ℚ)
    (now : ℚ) (s : List ℚ) :
    st.processStep timestamps now = some (.discarded, s) ↔
      ¬ ((st.remove_expired_timestamps timestamps now).length : ℤ) <
          st.rate_limit_count ∧
        st.rl_strategy = .discard ∧
        s = st.remove_expired_timestamps timestamps now ∧
        st.remove_expired_timestamps timestamps now ≠ [] :=
  stepOnPruned_discarded_iff st (st.remove_expired_timestamps timestamps now) now s

theorem remove_expired_split (st : RateLimitStage) (timestamps : List ℚ)
    (now : ℚ) :
    ∃ p, timestamps = p ++ st.remove_expired_timestamps timestamps now ∧
      ∀ t ∈ p, t < now - st.rate_limit_time :=
  removeLoop_split (now - st.rate_limit_time) timestamps

theorem remove_expired_sublist (st : RateLimitStage) (timestamps : List ℚ)
    (now : ℚ) :
    List.Sublist (st.remove_expired_timestamps timestamps now) timestamps :=
  removeLoop_sublist (now - st.rate_limit_time) timestamps

theorem remove_expired_sorted {st : RateLimitStage} {timestamps : List ℚ}
    (now : ℚ) (h : timestamps.Sorted (· ≤ ·)) :
    (st.remove_expired_timestamps timestamps now).Sorted (· ≤ ·) :=
  removeLoop_sorted h

theorem mem_remove_expired {st : RateLimitStage} {timestamps : List ℚ}
    {now t : ℚ} (ht : t ∈ st.remove_expired_timestamps timestamps now) :
    t ∈ timestamps :=
  mem_removeLoop (now - st.rate_limit_time) timestamps ht

/-! ### C8: idempotence of pruning -/

/-- C8: pruning is idempotent: for every timestamp sequence and fixed
instant `now`, applying `_remove_expired_timestamps` twice in a row with no
intervening admission yields the same remaining sequence as applying it
once. -/
theorem c8_prune_idempotent (st : RateLimitStage) (timestamps : List ℚ)
    (now : ℚ) :
    st.remove_expired_timestamps
        (st.remove_expired_timestamps timestamps now) now =
      st.remove_expired_timestamps timestamps now :=
  removeLoop_idem (now - st.rate_limit_time) timestamps

/-! ### C4: the prune drops exactly the expired leading prefix -/

/-- C4: `_remove_expired_timestamps` drops exactly the leading entries
strictly older than `now - rate_limit_time`: the result is the `dropWhile`
suffix of the input obtained by removing the maximal prefix of entries
`< now - rate_limit_time`, no other entry is removed or reordered, and the
first surviving entry (if any) is not expired. -/
theorem c4_prune_dropWhile_exact (st : RateLimitStage)
    (timestamps : List ℚ) (now : ℚ) :
    st.remove_expired_timestamps timestamps now =
      timestamps.dropWhile (fun t => decide (t < now - st.rate_limit_time)) ∧
    (∃ p, timestamps = p ++ st.remove_expired_timestamps timestamps now ∧
      ∀ t ∈ p, t < now - st.rate_limit_time) ∧
    ∀ h hs, st.remove_expired_timestamps timestamps now = h :: hs →
      ¬ h < now - st.rate_limit_time := by
  refine ⟨removeLoop_eq_dropWhile _ _, remove_expired_split st timestamps now, ?_⟩
  intro h hs he
  exact removeLoop_head_ge (now - st.rate_limit_time) h hs timestamps he

/-- Witness for C4 at a concrete input: pruning `[0, 15]` at `now = 20`
with `rate_limit_time = 10` leaves `[15]`, whose head is not expired. -/
theorem c4_witness :
    ¬ (15:ℚ) < 20 - (RateLimitStage.mk 1 10 .discard).rate_limit_time :=
  (c4_prune_dropWhile_exact
      (RateLimitStage.mk 1 10 .discard) [0, 15] 20).2.2 15 []
    (by norm_num [RateLimitStage.remove_expired_timestamps, removeLoop])

/-! ### C7: staleness bound after a prune (corrected at the boundary) -/

/-- C7 counterexample: an entry exactly at the window boundary survives the
prune but has `now - entry = rate_limit_time`, so the claimed strict bound
`now - entry < window_duration` is false for it. -/
theorem c7_counterexample :
    (RateLimitStage.mk 1 10 .stall).remove_expired_timestamps [0] 10 = [0] ∧
    ¬ ((10:ℚ) - 0 < (RateLimitStage.mk 1 10 .stall).rate_limit_time) := by
  constructor
  · norm_num [RateLimitStage.remove_expired_timestamps, removeLoop]
  · norm_num

/-- C7 amended: after the prune performed at instant `now` on the (sorted)
session sequence, every remaining entry `t` satisfies
`now - t ≤ rate_limit_time` (the boundary entry `t = now - rate_limit_time`
is retained, so the bound is non-strict). -/
theorem c7_no_stale_after_prune (st : RateLimitStage) (timestamps : List ℚ)
    (now : ℚ) (hs : timestamps.Sorted (· ≤ ·)) :
    ∀ t ∈ st.remove_expired_timestamps timestamps now,
      now - t ≤ st.rate_limit_time := by
  intro t ht
  have h := removeLoop_mem_ge_of_sorted hs t ht
  linarith

/-- Witness for C7 (amended) at a concrete input. -/
theorem c7_witness :
    (10:ℚ) - 5 ≤ (RateLimitStage.mk 1 10 .stall).rate_limit_time :=
  c7_no_stale_after_prune (RateLimitStage.mk 1 10 .stall) [5] 10
    (by simp) 5
    (by norm_num [RateLimitStage.remove_expired_timestamps, removeLoop])

/-! ### C2: initialize performs no validation (corrected) -/

/-- C2 counterexample: `initialize` with `window_capacity = 0` and
`window_duration = 0` does not raise a ConfigurationError. -/
theorem c2_counterexample :
    RateLimitStage.initializeFromConfig 0 0 .stall ≠ InitResult.configurationError := by
  simp [RateLimitStage.initializeFromConfig]

/-- C2 amended: `initialize` performs no validation — it succeeds on
`window_capacity = 0` / `window_duration = 0`, storing the values as given;
nevertheless, with `rate_limit_count = 0` the stage never admits an event
(no process step ever returns the admitted outcome). -/
theorem c2_initialize_never_validates :
    RateLimitStage.initializeFromConfig 0 0 .stall =
      InitResult.ok (RateLimitStage.mk 0 0 .stall) ∧
    ∀ (time : ℚ) (strat : RLStrategy) (timestamps : List ℚ) (now : ℚ)
      (s : List ℚ),
      (RateLimitStage.mk 0 time strat).processStep timestamps now ≠
        some (.admitted, s) := by
  refine ⟨rfl, ?_⟩
  intro time strat timestamps now s h
  obtain ⟨hlt, -⟩ := (processStep_admitted_iff _ _ _ _).mp h
  have hcnt : (RateLimitStage.mk 0 time strat).rate_limit_count = 0 := rfl
  rw [hcnt] at hlt
  omega

/-- Witness for C2 (amended) at a concrete input. -/
theorem c2_witness :
    (RateLimitStage.mk 0 (10:ℚ) .stall).processStep [] 0 ≠
      some (.admitted, [0]) :=
  c2_initialize_never_validates.2 10 .stall [] 0 [0]

/-! ### C10: the oldest-timestamp peek is unguarded -/

/-- C10: the `timestamps[0]` peek in the over-capacity branch is unguarded:
with `rate_limit_count ≥ 1` every process step is well defined (the
over-capacity branch implies a non-empty pruned deque), while for
`rate_limit_count ≤ 0` — including the constructor default `0` before
`initialize` runs — a process step on an empty timestamp sequence reaches
the index-0 access on the empty deque and raises (modelled as `none`). -/
theorem c10_unguarded_oldest_peek (st : RateLimitStage) (timestamps : List ℚ)
    (now : ℚ) :
    (1 ≤ st.rate_limit_count → (st.processStep timestamps now).isSome = true) ∧
    (st.rate_limit_count ≤ 0 → st.processStep [] now = none) := by
  constructor
  · intro h1
    unfold RateLimitStage.processStep RateLimitStage.stepOnPruned
    by_cases h : ((st.remove_expired_timestamps timestamps now).length : ℤ) <
        st.rate_limit_count
    · rw [if_pos h]
      rfl
    · rw [if_neg h]
      cases hp : st.remove_expired_timestamps timestamps now with
      | nil =>
        rw [hp] at h
        simp only [List.length_nil, Nat.cast_zero] at h
        exact absurd (by omega : (0:ℤ) < st.rate_limit_count) h
      | cons oldest pr => cases st.rl_strategy <;> rfl
  · intro h0
    rw [processStep_none_iff]
    have hp : st.remove_expired_timestamps [] now = [] := rfl
    rw [hp]
    simp only [List.length_nil, Nat.cast_zero]
    exact ⟨by omega, by trivial⟩

/-- Witness for C10 at concrete inputs: with count 1 the step is defined;
with the constructor default count 0 the step on an empty deque raises. -/
theorem c10_witness :
    ((RateLimitStage.mk 1 10 .stall).processStep [] 0).isSome = true ∧
    (RateLimitStage.mk 0 10 .stall).processStep [] 0 = none :=
  ⟨(c10_unguarded_oldest_peek (RateLimitStage.mk 1 10 .stall) [] 0).1
      (by decide),
   (c10_unguarded_oldest_peek (RateLimitStage.mk 0 10 .stall) [] 0).2
      (by decide)⟩

/-! ### C9: a post-prune count under capacity admits immediately -/

/-- C9: if after pruning the remaining count is strictly less than
`rate_limit_count`, `process` appends `now` to the sequence and returns
CONTINUE without further waiting (the loop resolves at the same instant
`now`, consuming no wake-up, for any strategy). -/
theorem c9_under_capacity_admits (st : RateLimitStage) (timestamps : List ℚ)
    (now : ℚ)
    (h : ((st.remove_expired_timestamps timestamps now).length : ℤ) <
      st.rate_limit_count) :
    st.processStep timestamps now =
      some (.admitted, st.remove_expired_timestamps timestamps now ++ [now]) ∧
    ∀ wakes, st.processLoop wakes timestamps now =
      some (.continued,
        st.remove_expired_timestamps timestamps now ++ [now], now) := by
  have hstep : st.processStep timestamps now =
      some (.admitted, st.remove_expired_timestamps timestamps now ++ [now]) :=
    (processStep_admitted_iff _ _ _ _).mpr ⟨h, rfl⟩
  exact ⟨hstep, fun wakes => processLoop_of_admitted wakes hstep⟩

/-- Witness for C9 at a concrete input. -/
theorem c9_witness :
    (RateLimitStage.mk 2 10 .stall).processStep [0] 1 =
      some (.admitted,
        (RateLimitStage.mk 2 10 .stall).remove_expired_timestamps [0] 1
          ++ [1]) ∧
    (RateLimitStage.mk 2 10 .stall).processLoop [] [0] 1 =
      some (.continued,
        (RateLimitStage.mk 2 10 .stall).remove_expired_timestamps [0] 1
          ++ [1], 1) :=
  ⟨(c9_under_capacity_admits (RateLimitStage.mk 2 10 .stall) [0] 1
      (by norm_num [RateLimitStage.remove_expired_timestamps, removeLoop])).1,
   (c9_under_capacity_admits (RateLimitStage.mk 2 10 .stall) [0] 1
      (by norm_num [RateLimitStage.remove_expired_timestamps, removeLoop])).2 []⟩

/-! ### C5: DISCARD rejection and the frame of the sequence (corrected) -/

/-- C5 counterexample: a rejected attempt under DISCARD can still mutate
the session's sequence — the eager prune at the start of the same `process`
call removed the expired entry `0`, so the final sequence `[15]` differs
from the initial `[0, 15]` even though the attempt was rejected. -/
theorem c5_counterexample :
    (RateLimitStage.mk 1 10 .discard).processStep [0, 15] 20 =
      some (.discarded, [15]) ∧ [(15:ℚ)] ≠ [0, 15] := by
  constructor
  · norm_num [RateLimitStage.processStep, RateLimitStage.stepOnPruned,
      RateLimitStage.remove_expired_timestamps, removeLoop]
  · simp

/-- C5 amended: a rejected attempt under DISCARD appends no timestamp and
performs no mutation beyond the eager prune: `process` returns TERMINATE
immediately with the sequence equal to the pruned sequence, which is a
suffix of the original (so the sequence is unchanged exactly when no entry
was expired). -/
theorem c5_discard_appends_nothing (st : RateLimitStage) (timestamps : List ℚ)
    (now : ℚ) (hstrat : st.rl_strategy = .discard)
    (hover : ¬ ((st.remove_expired_timestamps timestamps now).length : ℤ) <
      st.rate_limit_count)
    (hne : st.remove_expired_timestamps timestamps now ≠ []) :
    st.processStep timestamps now =
      some (.discarded, st.remove_expired_timestamps timestamps now) ∧
    (∀ wakes, st.processLoop wakes timestamps now =
      some (.terminated, st.remove_expired_timestamps timestamps now, now)) ∧
    ∃ p, timestamps = p ++ st.remove_expired_timestamps timestamps now := by
  have hstep : st.processStep timestamps now =
      some (.discarded, st.remove_expired_timestamps timestamps now) :=
    (processStep_discarded_iff _ _ _ _).mpr ⟨hover, hstrat, rfl, hne⟩
  refine ⟨hstep, fun wakes => processLoop_of_discarded wakes hstep, ?_⟩
  obtain ⟨p, hp, -⟩ := remove_expired_split st timestamps now
  exact ⟨p, hp⟩

/-- Witness for C5 (amended) at a concrete input. -/
theorem c5_witness :
    (RateLimitStage.mk 1 10 .discard).processStep [0, 15] 20 =
      some (.discarded,
        (RateLimitStage.mk 1 10 .discard).remove_expired_timestamps
          [0, 15] 20) ∧
    (RateLimitStage.mk 1 10 .discard).processLoop [] [0, 15] 20 =
      some (.terminated,
        (RateLimitStage.mk 1 10 .discard).remove_expired_timestamps
          [0, 15] 20, 20) :=
  ⟨(c5_discard_appends_nothing (RateLimitStage.mk 1 10 .discard) [0, 15] 20
      rfl
      (by norm_num [RateLimitStage.remove_expired_timestamps, removeLoop])
      (by norm_num [RateLimitStage.remove_expired_timestamps, removeLoop])).1,
   (c5_discard_appends_nothing (RateLimitStage.mk 1 10 .discard) [0, 15] 20
      rfl
      (by norm_num [RateLimitStage.remove_expired_timestamps, removeLoop])
      (by norm_num [RateLimitStage.remove_expired_timestamps,
        removeLoop])).2.1 []⟩

/-! ### C6: the computed wait -/

/-- C6: in the over-capacity branch the computed wait equals
`max 0 ((oldest + rate_limit_time) - now) + 3/10` (the `max` is redundant
because the prune guarantees `oldest ≥ now - rate_limit_time`), is
non-negative, and for a fixed oldest surviving timestamp strictly
decreases as `now` approaches `wake_at = oldest + rate_limit_time`. -/
theorem c6_stall_wait_formula (st : RateLimitStage) (timestamps : List ℚ)
    (now w oldest : ℚ) (pr s : List ℚ)
    (hp : st.remove_expired_timestamps timestamps now = oldest :: pr)
    (h : st.processStep timestamps now = some (.stalled w, s)) :
    w = max 0 (oldest + st.rate_limit_time - now) + 3 / 10 ∧
    0 ≤ w ∧
    ∀ n1 n2 : ℚ, n1 < n2 → n2 ≤ oldest + st.rate_limit_time →
      st.stall_duration oldest n2 < st.stall_duration oldest n1 := by
  obtain ⟨-, -, -, oldest', pr', hp', hw⟩ :=
    (processStep_stalled_iff _ _ _ _ _).mp h
  rw [hp] at hp'
  obtain ⟨ho, -⟩ := List.cons.injEq .. ▸ hp'
  subst ho
  have hge : ¬ oldest < now - st.rate_limit_time :=
    removeLoop_head_ge (now - st.rate_limit_time) oldest pr timestamps hp
  have hge' := not_lt.mp hge
  have hmax : max 0 (oldest + st.rate_limit_time - now) =
      oldest + st.rate_limit_time - now := by
    rw [max_eq_right]
    linarith
  refine ⟨?_, ?_, ?_⟩
  · rw [hw, hmax]
    simp only [RateLimitStage.stall_duration]
  · rw [hw]
    simp only [RateLimitStage.stall_duration]
    linarith
  · intro n1 n2 h12 hn2
    simp only [RateLimitStage.stall_duration]
    linarith

/-- Witness for C6 at a concrete input: `oldest = 5`, `now = 6`,
`rate_limit_time = 10`, so the wait is `9.3` and the wait function
strictly decreases between `now = 14` and `now = 15 = wake_at`. -/
theorem c6_witness :
    (93:ℚ) / 10 =
      max 0 (5 + (RateLimitStage.mk 1 10 .stall).rate_limit_time - 6)
        + 3 / 10 ∧
    (0:ℚ) ≤ 93 / 10 ∧
    (RateLimitStage.mk 1 10 .stall).stall_duration 5 15 <
      (RateLimitStage.mk 1 10 .stall).stall_duration 5 14 :=
  have H := c6_stall_wait_formula (RateLimitStage.mk 1 10 .stall) [5]
    6 (93 / 10) 5 [] [5]
    (by norm_num [RateLimitStage.remove_expired_timestamps, removeLoop])
    (by norm_num [RateLimitStage.processStep, RateLimitStage.stepOnPruned,
      RateLimitStage.remove_expired_timestamps, removeLoop,
      RateLimitStage.stall_duration])
  ⟨H.1, H.2.1, H.2.2 14 15 (by norm_num) (by norm_num)⟩

/-! ### C3: the STALL loop re-checks after waking -/

theorem processLoop_continued_inv (st : RateLimitStage) :
    ∀ (wakes timestamps : List ℚ) (now : ℚ) (s : List ℚ) (t : ℚ),
      st.processLoop wakes timestamps now = some (.continued, s, t) →
      ∃ ts0, ((st.remove_expired_timestamps ts0 t).length : ℤ) <
          st.rate_limit_count ∧
        s = st.remove_expired_timestamps ts0 t ++ [t] := by
  intro wakes
  induction wakes with
  | nil =>
    intro timestamps now s t h
    cases hstep : st.processStep timestamps now with
    | none =>
      rw [processLoop_of_none [] hstep] at h
      simp at h
    | some v =>
      obtain ⟨o, s'⟩ := v
      cases o with
      | admitted =>
        rw [processLoop_of_admitted [] hstep] at h
        obtain ⟨hs', ht'⟩ : s' = s ∧ now = t := by simpa using h
        obtain ⟨hlt, hEq⟩ := (processStep_admitted_iff _ _ _ _).mp hstep
        subst ht'
        refine ⟨timestamps, hlt, ?_⟩
        rw [← hs']
        exact hEq
      | stalled w =>
        rw [processLoop_of_stalled_nil hstep] at h
        simp at h
      | discarded =>
        rw [processLoop_of_discarded [] hstep] at h
        simp at h
  | cons wk rest ih =>
    intro timestamps now s t h
    cases hstep : st.processStep timestamps now with
    | none =>
      rw [processLoop_of_none _ hstep] at h
      simp at h
    | some v =>
      obtain ⟨o, s'⟩ := v
      cases o with
      | admitted =>
        rw [processLoop_of_admitted _ hstep] at h
        obtain ⟨hs', ht'⟩ : s' = s ∧ now = t := by simpa using h
        obtain ⟨hlt, hEq⟩ := (processStep_admitted_iff _ _ _ _).mp hstep
        subst ht'
        refine ⟨timestamps, hlt, ?_⟩
        rw [← hs']
        exact hEq
      | stalled w =>
        rw [processLoop_of_stalled_cons wk rest hstep] at h
        exact ih s' wk s t h
      | discarded =>
        rw [processLoop_of_discarded _ hstep] at h
        simp at h

/-- C3: under STALL, an over-capacity step suspends and then restarts the
loop from the pruning step at the refreshed instant (first conjunct: after
one sleep the loop continues exactly as a fresh evaluation from the
post-prune state at the wake instant); the loop returns CONTINUE only when
a post-prune re-check at the final instant `t` finds the count strictly
below `rate_limit_count`, appending `t` — it never admits unconditionally
after waking (second conjunct). -/
theorem c3_stall_restarts_and_rechecks (st : RateLimitStage) :
    (∀ (wakes timestamps : List ℚ) (now w wk : ℚ) (s : List ℚ),
      st.processStep timestamps now = some (.stalled w, s) →
      st.processLoop (wk :: wakes) timestamps now =
        st.processLoop wakes s wk) ∧
    ∀ (wakes timestamps : List ℚ) (now : ℚ) (s : List ℚ) (t : ℚ),
      st.processLoop wakes timestamps now = some (.continued, s, t) →
      ∃ ts0, ((st.remove_expired_timestamps ts0 t).length : ℤ) <
          st.rate_limit_count ∧
        s = st.remove_expired_timestamps ts0 t ++ [t] := by
  constructor
  · intro wakes timestamps now w wk s h
    exact processLoop_of_stalled_cons wk wakes h
  · exact processLoop_continued_inv st

/-- Witness for C3 at a concrete run: with capacity 1, window 10 and an
admission recorded at 0, an attempt at 5 stalls; waking at 11 the loop
re-checks, finds the pruned deque under capacity and admits at 11. -/
theorem c3_witness :
    (RateLimitStage.mk 1 10 .stall).processLoop [11] [0] 5 =
      (RateLimitStage.mk 1 10 .stall).processLoop [] [0] 11 ∧
    ∃ ts0,
      (((RateLimitStage.mk 1 10 .stall).remove_expired_timestamps
          ts0 11).length : ℤ) <
        (RateLimitStage.mk 1 10 .stall).rate_limit_count ∧
      [11] = (RateLimitStage.mk 1 10 .stall).remove_expired_timestamps
          ts0 11 ++ [11] := by
  have h1 : (RateLimitStage.mk 1 10 .stall).processStep [0] 5 =
      some (.stalled (53 / 10), [0]) := by
    norm_num [RateLimitStage.processStep, RateLimitStage.stepOnPruned,
      RateLimitStage.remove_expired_timestamps, removeLoop,
      RateLimitStage.stall_duration]
  have h3 : (RateLimitStage.mk 1 10 .stall).processStep [0] 11 =
      some (.admitted, [11]) := by
    norm_num [RateLimitStage.processStep, RateLimitStage.stepOnPruned,
      RateLimitStage.remove_expired_timestamps, removeLoop]
  have h2 := processLoop_of_stalled_cons 11 [] h1
  have h4 := processLoop_of_admitted ([] : List ℚ) h3
  have hloop : (RateLimitStage.mk 1 10 .stall).processLoop [11] [0] 5 =
      some (.continued, [11], 11) := by rw [h2, h4]
  exact ⟨(c3_stall_restarts_and_rechecks (RateLimitStage.mk 1 10 .stall)).1
      [] [0] 5 (53 / 10) 11 [0] h1,
    (c3_stall_restarts_and_rechecks (RateLimitStage.mk 1 10 .stall)).2
      [11] [0] 5 [11] 11 hloop⟩

/-! ### C1: the trailing-window bound over whole attempt traces -/

theorem winCount_append (d T : ℚ) (l₁ l₂ : List ℚ) :
    winCount d T (l₁ ++ l₂) = winCount d T l₁ + winCount d T l₂ := by
  simp [winCount, List.countP_append]

theorem winCount_le_length (d T : ℚ) (l : List ℚ) :
    winCount d T l ≤ l.length :=
  List.countP_le_length _

theorem winCount_sublist_le {l₁ l₂ : List ℚ} (h : List.Sublist l₁ l₂)
    (d T : ℚ) : winCount d T l₁ ≤ winCount d T l₂ :=
  h.countP_le _

theorem winCount_eq_zero_of_lt (d T : ℚ) (l : List ℚ)
    (h : ∀ a ∈ l, a < T - d) : winCount d T l = 0 := by
  unfold winCount
  rw [List.countP_eq_zero]
  intro a ha
  simp only [decide_eq_true_eq]
  rintro ⟨h1, -⟩
  have := h a ha
  linarith

theorem winCount_eq_zero_of_gt (d T : ℚ) (l : List ℚ)
    (h : ∀ a ∈ l, T < a) : winCount d T l = 0 := by
  unfold winCount
  rw [List.countP_eq_zero]
  intro a ha
  simp only [decide_eq_true_eq]
  rintro ⟨-, h2⟩
  have := h a ha
  linarith

/-- For any window end `T ≥ now`, the prune at `now` does not change the
window count: every dropped entry is older than `now - d ≤ T - d`. -/
theorem winCount_prune_eq (st : RateLimitStage) (timestamps : List ℚ)
    (now T : ℚ) (hT : now ≤ T) :
    winCount st.rate_limit_time T timestamps =
      winCount st.rate_limit_time T
        (st.remove_expired_timestamps timestamps now) := by
  obtain ⟨p, hsplit, hpmem⟩ := remove_expired_split st timestamps now
  nth_rewrite 1 [hsplit]
  rw [winCount_append]
  have hz : winCount st.rate_limit_time T p = 0 := by
    apply winCount_eq_zero_of_lt
    intro a ha
    have := hpmem a ha
    linarith
  rw [hz, Nat.zero_add]

/-- Every admission instant collected by `runAttempts` is one of the
attempt instants. -/
theorem runAttempts_adm_mem (st : RateLimitStage) :
    ∀ (nows s : List ℚ), ∀ a ∈ (st.runAttempts nows s).2, a ∈ nows := by
  intro nows
  induction nows with
  | nil =>
    intro s a ha
    rw [runAttempts_nil] at ha
    simp at ha
  | cons now rest ih =>
    intro s a ha
    cases hstep : st.processStep s now with
    | none =>
      rw [runAttempts_cons_none rest hstep] at ha
      simp at ha
    | some v =>
      obtain ⟨o, s'⟩ := v
      cases o with
      | admitted =>
        rw [runAttempts_cons_admitted rest hstep] at ha
        rcases List.mem_cons.mp ha with h | h
        · exact h ▸ List.mem_cons_self now rest
        · exact List.mem_cons_of_mem now (ih s' a h)
      | stalled w =>
        rw [runAttempts_cons_stalled rest hstep] at ha
        exact List.mem_cons_of_mem now (ih s' a ha)
      | discarded =>
        rw [runAttempts_cons_discarded rest hstep] at ha
        exact List.mem_cons_of_mem now (ih s' a ha)

/-- Over capacity with a non-empty pruned deque, the attempt neither
admits nor raises, so the trace continues from the pruned state. -/
theorem runAttempts_cons_over (st : RateLimitStage) (s : List ℚ) (now : ℚ)
    (rest : List ℚ)
    (hover : ¬ ((st.remove_expired_timestamps s now).length : ℤ) <
      st.rate_limit_count)
    (hne : st.remove_expired_timestamps s now ≠ []) :
    st.runAttempts (now :: rest) s =
      st.runAttempts rest (st.remove_expired_timestamps s now) := by
  cases hp : st.remove_expired_timestamps s now with
  | nil => exact absurd hp hne
  | cons oldest pr =>
    cases hstrat : st.rl_strategy with
    | stall =>
      exact runAttempts_cons_stalled rest
        ((processStep_stalled_iff st s now (st.stall_duration oldest now)
            (oldest :: pr)).mpr
          ⟨hover, hstrat, hp.symm, oldest, pr, hp, rfl⟩)
    | discard =>
      exact runAttempts_cons_discarded rest
        ((processStep_discarded_iff st s now (oldest :: pr)).mpr
          ⟨hover, hstrat, hp.symm, hne⟩)

/-- The inductive invariant behind C1: running any sorted sequence of
attempt instants from a sorted state `s` (all of whose entries precede the
attempts and which itself satisfies the window bound), the concatenation
of `s` with all admission instants still satisfies the window bound for
every trailing window. -/
theorem runAttempts_window_invariant (st : RateLimitStage) :
    ∀ (nows : List ℚ), nows.Sorted (· ≤ ·) →
    ∀ (s : List ℚ), s.Sorted (· ≤ ·) →
      (∀ x ∈ s, ∀ n ∈ nows, x ≤ n) →
      (∀ T : ℚ, (winCount st.rate_limit_time T s : ℤ) ≤
        st.rate_limit_count) →
      ∀ T : ℚ,
        (winCount st.rate_limit_time T
            (s ++ (st.runAttempts nows s).2) : ℤ) ≤ st.rate_limit_count := by
  intro nows
  induction nows with
  | nil =>
    intro _ s _ _ hwin T
    rw [runAttempts_nil]
    simpa using hwin T
  | cons now rest ih =>
    intro hsorted s hss hcross hwin T
    obtain ⟨hnowrest, hrest⟩ := List.sorted_cons.mp hsorted
    have hxnow : ∀ x ∈ s, x ≤ now :=
      fun x hx => hcross x hx now (List.mem_cons_self now rest)
    by_cases hlt : ((st.remove_expired_timestamps s now).length : ℤ) <
        st.rate_limit_count
    · -- the attempt at `now` is admitted
      have hstep : st.processStep s now =
          some (.admitted, st.remove_expired_timestamps s now ++ [now]) :=
        (processStep_admitted_iff _ _ _ _).mpr ⟨hlt, rfl⟩
      rw [runAttempts_cons_admitted rest hstep]
      dsimp only
      have hsort' : (st.remove_expired_timestamps s now ++ [now]).Sorted
          (· ≤ ·) := by
        refine List.pairwise_append.mpr
          ⟨remove_expired_sorted now hss, List.sorted_singleton now, ?_⟩
        intro x hx y hy
        simp only [List.mem_singleton] at hy
        subst hy
        exact hxnow x (mem_remove_expired hx)
      have hcross' : ∀ x ∈ st.remove_expired_timestamps s now ++ [now],
          ∀ n ∈ rest, x ≤ n := by
        intro x hx n hn
        rcases List.mem_append.mp hx with h | h
        · exact hcross x (mem_remove_expired h) n (List.mem_cons_of_mem now hn)
        · simp only [List.mem_singleton] at h
          subst h
          exact hnowrest n hn
      have hwin' : ∀ T' : ℚ,
          (winCount st.rate_limit_time T'
              (st.remove_expired_timestamps s now ++ [now]) : ℤ) ≤
            st.rate_limit_count := by
        intro T'
        have h1 := winCount_le_length st.rate_limit_time T'
          (st.remove_expired_timestamps s now ++ [now])
        have h2 : (st.remove_expired_timestamps s now ++ [now]).length =
            (st.remove_expired_timestamps s now).length + 1 := by simp
        omega
      have hIH := ih hrest (st.remove_expired_timestamps s now ++ [now])
        hsort' hcross' hwin'
      by_cases hT : now ≤ T
      · have hiht := hIH T
        rw [List.append_assoc, List.singleton_append, winCount_append]
          at hiht
        rw [winCount_append, winCount_prune_eq st s now T hT]
        exact hiht
      · have hz : winCount st.rate_limit_time T
            (now :: (st.runAttempts rest
              (st.remove_expired_timestamps s now ++ [now])).2) = 0 := by
          apply winCount_eq_zero_of_gt
          intro a ha
          rcases List.mem_cons.mp ha with h | h
          · exact h ▸ not_le.mp hT
          · have hmem := runAttempts_adm_mem st rest _ a h
            exact lt_of_lt_of_le (not_le.mp hT) (hnowrest a hmem)
        rw [winCount_append, hz, Nat.add_zero]
        exact hwin T
    · -- the attempt at `now` is rejected (or raises)
      by_cases hemp : st.remove_expired_timestamps s now = []
      · have hstep : st.processStep s now = none :=
          (processStep_none_iff _ _ _).mpr ⟨hlt, hemp⟩
        rw [runAttempts_cons_none rest hstep]
        dsimp only
        rw [List.append_nil]
        exact hwin T
      · rw [runAttempts_cons_over st s now rest hlt hemp]
        have hIH := ih hrest (st.remove_expired_timestamps s now)
          (remove_expired_sorted now hss)
          (fun x hx n hn =>
            hcross x (mem_remove_expired hx) n (List.mem_cons_of_mem now hn))
          (fun T' => by
            have hmono := winCount_sublist_le
              (remove_expired_sublist st s now) st.rate_limit_time T'
            have hw := hwin T'
            omega)
        by_cases hT : now ≤ T
        · have hiht := hIH T
          rw [winCount_append] at hiht
          rw [winCount_append, winCount_prune_eq st s now T hT]
          exact hiht
        · have hz : winCount st.rate_limit_time T
              ((st.runAttempts rest
                (st.remove_expired_timestamps s now)).2) = 0 := by
            apply winCount_eq_zero_of_gt
            intro a ha
            have hmem := runAttempts_adm_mem st rest _ a ha
            exact lt_of_lt_of_le (not_le.mp hT) (hnowrest a hmem)
          rw [winCount_append, hz, Nat.add_zero]
          exact hwin T

/-- C1: for every sequence of admission attempts for a single session key
(processed at nondecreasing instants, starting from the empty per-session
deque), the number of admissions recorded in any trailing window
`[T - rate_limit_time, T]` never exceeds `rate_limit_count` — a timestamp
is appended only when the post-prune count is strictly below
`rate_limit_count`. -/
theorem c1_trailing_window_bound (st : RateLimitStage) (nows : List ℚ)
    (hc : 0 ≤ st.rate_limit_count) (hsorted : nows.Sorted (· ≤ ·)) (T : ℚ) :
    (winCount st.rate_limit_time T ((st.runAttempts nows []).2) : ℤ) ≤
      st.rate_limit_count := by
  have h := runAttempts_window_invariant st nows hsorted []
    (by simp) (by simp) (fun T' => by simpa [winCount] using hc) T
  simpa using h

/-- Witness for C1 at a concrete trace: capacity 2, window 10, attempts at
0, 1 and 2 — the third attempt is rejected, so every trailing window holds
at most 2 admissions (checked at `T = 5`). -/
theorem c1_witness :
    (winCount (RateLimitStage.mk 2 10 .discard).rate_limit_time 5
        (((RateLimitStage.mk 2 10 .discard).runAttempts [0, 1, 2] []).2)
      : ℤ) ≤ (RateLimitStage.mk 2 10 .discard).rate_limit_count :=
  c1_trailing_window_bound (RateLimitStage.mk 2 10 .discard) [0, 1, 2]
    (by decide)
    (by norm_num [List.sorted_cons]) 5

end AstrBotRL
